import Mathlib

/-!
A shallow embedding of the General_Programming_BinaryTree repository
(`src/BinaryTree.h`, `src/BinaryTree.c`).

Nodes live in a heap addressed by natural numbers; a C pointer
`TreeNode_t*` is an `Option Nat` (`none` = `NULL`).  The recursive C
functions (`Tree_SubTreeDelete_Static`, `Tree_DepthGet`, the three
traversals) become fuel-indexed Lean functions returning `none` when the
fuel runs out, i.e. when the C recursion would not terminate.  The
`ASSERT(NULL != p)` contract check of the source (an infinite busy loop in
debug builds, undefined behaviour after the macro is compiled out) is
modelled as `none` as well.
-/

/-- One `TreeNode_t` record (`src/BinaryTree.h` lines 83-89): parent, left
and right child pointers plus the `void* data` payload pointer (payload
addresses are modelled as natural numbers). -/
structure Node where
  parent : Option Nat
  left   : Option Nat
  right  : Option Nat
  data   : Option Nat
deriving DecidableEq

/-- The node state with every field `NULL`, exactly what `Tree_NodeInit`
establishes. -/
def emptyNode : Node := ⟨none, none, none, none⟩

/-- Memory: every address holds a `TreeNode_t` record. -/
abbrev Heap := Nat → Node

/-- Store node `n` at address `i`. -/
def Heap.update (h : Heap) (i : Nat) (n : Node) : Heap :=
  fun j => if j = i then n else h j

theorem Heap.update_same (h : Heap) (i : Nat) (n : Node) :
    Heap.update h i n i = n := by
  simp [Heap.update]

theorem Heap.update_other (h : Heap) (i : Nat) (n : Node) (j : Nat)
    (hj : j ≠ i) : Heap.update h i n j = h j := by
  simp [Heap.update, hj]

/-- `TreeErrorCode_t` (`src/BinaryTree.h` lines 92-100). -/
inductive TreeErrorCode where
  | ERR_SUCCESS
  | ERR_FAILURE
  | ERR_INVALID_POINTER
  | ERR_MEM
  | ERR_WRONG_PARAM
  | ERR_NODE_EXIST
deriving DecidableEq

open TreeErrorCode

/-- `INSERT_POS_LEFT` (`src/BinaryTree.h` line 110): `((int)0x01)`. -/
def INSERT_POS_LEFT : Nat := 0x01

/-- `INSERT_POS_RIGHT` (`src/BinaryTree.h` line 114): `((int)0x00)`. -/
def INSERT_POS_RIGHT : Nat := 0x00

/-- `INSERT_MODE_MASK` (`src/BinaryTree.c` line 53). -/
def INSERT_MODE_MASK : Nat := INSERT_POS_LEFT ||| INSERT_POS_RIGHT

/-- The 32-bit two's-complement bit pattern of `~INSERT_MODE_MASK`, the
mask used in the `Mode` check of `Tree_NodeAppend` (`src/BinaryTree.c`
line 403).  A C `int` value is modelled by its 32-bit pattern, a natural
number below `2 ^ 32`. -/
def INSERT_MODE_MASK_COMPL : Nat := 2 ^ 32 - 1 - INSERT_MODE_MASK

/-- `Tree_NodeInit` (`src/BinaryTree.c` lines 180-189): reset all four
fields of the (non-`NULL`, by `ASSERT`) node to `NULL`. -/
def Tree_NodeInit (h : Heap) (pNode : Nat) : Heap :=
  Heap.update h pNode emptyNode

/-- `Tree_NodeDelete` (`src/BinaryTree.c` lines 202-234): leaf-only
structural delete of the (non-`NULL`, by `ASSERT`) node.  Returns the
error code and the new heap. -/
def Tree_NodeDelete (h : Heap) (pNode : Nat) : TreeErrorCode × Heap :=
  if (h pNode).left ≠ none ∨ (h pNode).right ≠ none then
    (ERR_FAILURE, h)
  else
    let h1 :=
      match (h pNode).parent with
      | none => h
      | some pParent =>
        let n := h pParent
        let n := if n.left = some pNode then { n with left := none } else n
        let n := if n.right = some pNode then { n with right := none } else n
        Heap.update h pParent n
    (ERR_SUCCESS, Tree_NodeInit h1 pNode)

/-- `Tree_NodeAppend` (`src/BinaryTree.c` lines 393-441).  `Mode` is the
32-bit pattern of the C `int` argument. -/
def Tree_NodeAppend (h : Heap) (pNode pNewNode : Option Nat) (Mode : Nat) :
    TreeErrorCode × Heap :=
  match pNode, pNewNode with
  | some p, some q =>
    if Mode &&& INSERT_MODE_MASK_COMPL ≠ 0 then
      (ERR_WRONG_PARAM, h)
    else if Mode &&& INSERT_MODE_MASK = INSERT_POS_LEFT then
      if (h p).left = none then
        let h1 := Heap.update h p { h p with left := some q }
        let h2 := Heap.update h1 q { h1 q with parent := some p }
        (ERR_SUCCESS, h2)
      else
        (ERR_NODE_EXIST, h)
    else if Mode &&& INSERT_MODE_MASK = INSERT_POS_RIGHT then
      if (h p).right = none then
        let h1 := Heap.update h p { h p with right := some q }
        let h2 := Heap.update h1 q { h1 q with parent := some p }
        (ERR_SUCCESS, h2)
      else
        (ERR_NODE_EXIST, h)
    else
      (ERR_WRONG_PARAM, h)
  | _, _ => (ERR_INVALID_POINTER, h)

/-- `Tree_DepthGet` (`src/BinaryTree.c` lines 280-291), fuel-indexed.
The C `int` result is modelled as an integer. -/
def Tree_DepthGetF : Nat → Heap → Option Nat → Option Int
  | _, _, none => some 0
  | 0, _, some _ => none
  | fuel + 1, h, some p =>
    match Tree_DepthGetF fuel h ((h p).left),
          Tree_DepthGetF fuel h ((h p).right) with
    | some lD, some rD => some (if lD ≥ rD then lD + 1 else rD + 1)
    | _, _ => none

/-- The recursive body of `Tree_SubTreeDelete_Static`
(`src/BinaryTree.c` lines 247-270), fuel-indexed.  The callee writes
`NULL` through `ppNode` exactly when the incoming reference is non-`NULL`;
here that write is performed on the two child-field call sites
(`&pNode->left`, `&pNode->right`), and the top-level caller variable is
handled by `Tree_SubTreeDelete_Static` below.  The return codes of the
recursive calls and of `Tree_NodeDelete` are ignored, as in the source. -/
def subTreeDeleteF : Nat → Heap → Option Nat → Option (TreeErrorCode × Heap)
  | _, h, none => some (ERR_FAILURE, h)
  | 0, _, some _ => none
  | fuel + 1, h, some p =>
    match subTreeDeleteF fuel h ((h p).left) with
    | none => none
    | some (_, h1) =>
      let h1 := if ((h p).left).isSome then
          Heap.update h1 p { h1 p with left := none }
        else h1
      match subTreeDeleteF fuel h1 ((h1 p).right) with
      | none => none
      | some (_, h2) =>
        let h2 := if ((h1 p).right).isSome then
            Heap.update h2 p { h2 p with right := none }
          else h2
        some (ERR_SUCCESS, (Tree_NodeDelete h2 p).2)

/-- `Tree_SubTreeDelete_Static` (`src/BinaryTree.c` lines 247-270) as seen
by the caller: takes the value of the caller's root reference `*ppNode`
and returns the error code, the new heap, and the value the caller's
reference holds afterwards. -/
def Tree_SubTreeDelete_Static (fuel : Nat) (h : Heap) (r : Option Nat) :
    Option (TreeErrorCode × Heap × Option Nat) :=
  match subTreeDeleteF fuel h r with
  | none => none
  | some (c, h') => some (c, h', if r.isSome then none else r)

/-- `Tree_TravesePreOrder` (`src/BinaryTree.c` lines 455-467),
fuel-indexed.  `pFunPresent` models whether the `pFun` callback pointer is
non-`NULL`; the result trace lists the `(Ctx, pNode->data)` argument pairs
of the callback invocations in order.  Traversal mutates nothing, so no
heap is returned. -/
def Tree_TravesePreOrderF :
    Nat → Heap → Option Nat → Bool → Option Nat →
    Option (TreeErrorCode × List (Option Nat × Option Nat))
  | _, _, none, _, _ => some (ERR_INVALID_POINTER, [])
  | _, _, some _, false, _ => some (ERR_INVALID_POINTER, [])
  | 0, _, some _, true, _ => none
  | fuel + 1, h, some p, true, ctx =>
    match Tree_TravesePreOrderF fuel h ((h p).left) true ctx with
    | none => none
    | some (_, tl) =>
      match Tree_TravesePreOrderF fuel h ((h p).right) true ctx with
      | none => none
      | some (_, tr) => some (ERR_SUCCESS, (ctx, (h p).data) :: (tl ++ tr))

/-- `Tree_TraveseInOrder` (`src/BinaryTree.c` lines 481-493),
fuel-indexed; see `Tree_TravesePreOrderF`. -/
def Tree_TraveseInOrderF :
    Nat → Heap → Option Nat → Bool → Option Nat →
    Option (TreeErrorCode × List (Option Nat × Option Nat))
  | _, _, none, _, _ => some (ERR_INVALID_POINTER, [])
  | _, _, some _, false, _ => some (ERR_INVALID_POINTER, [])
  | 0, _, some _, true, _ => none
  | fuel + 1, h, some p, true, ctx =>
    match Tree_TraveseInOrderF fuel h ((h p).left) true ctx with
    | none => none
    | some (_, tl) =>
      match Tree_TraveseInOrderF fuel h ((h p).right) true ctx with
      | none => none
      | some (_, tr) =>
        some (ERR_SUCCESS, tl ++ [(ctx, (h p).data)] ++ tr)

/-- `Tree_TravesePostOrder` (`src/BinaryTree.c` lines 507-519),
fuel-indexed; see `Tree_TravesePreOrderF`. -/
def Tree_TravesePostOrderF :
    Nat → Heap → Option Nat → Bool → Option Nat →
    Option (TreeErrorCode × List (Option Nat × Option Nat))
  | _, _, none, _, _ => some (ERR_INVALID_POINTER, [])
  | _, _, some _, false, _ => some (ERR_INVALID_POINTER, [])
  | 0, _, some _, true, _ => none
  | fuel + 1, h, some p, true, ctx =>
    match Tree_TravesePostOrderF fuel h ((h p).left) true ctx with
    | none => none
    | some (_, tl) =>
      match Tree_TravesePostOrderF fuel h ((h p).right) true ctx with
      | none => none
      | some (_, tr) =>
        some (ERR_SUCCESS, tl ++ tr ++ [(ctx, (h p).data)])

/-- State of the dynamic-memory variant: the heap plus the list of
addresses passed to `free` so far (most recent first). -/
structure DynState where
  heap : Heap
  freed : List Nat

/-- `Tree_NodeDestory` (`src/BinaryTree.c` lines 107-129): performs
`Tree_NodeDelete(*ppNode)`; on failure propagates the code, on success
frees the node and nulls the caller's reference.  The result carries the
code, the new state, and the value of `*ppNode` afterwards.  When
`*ppNode` is `NULL`, `Tree_NodeDelete(NULL)` hits `ASSERT(NULL != pNode)`
— modelled as `none` (no result is ever returned). -/
def Tree_NodeDestory (st : DynState) (r : Option Nat) :
    Option (TreeErrorCode × DynState × Option Nat) :=
  match r with
  | none => none
  | some p =>
    match Tree_NodeDelete st.heap p with
    | (c, h') =>
      if c ≠ ERR_SUCCESS then
        some (c, ⟨h', st.freed⟩, some p)
      else
        some (ERR_SUCCESS, ⟨h', p :: st.freed⟩, none)

/-! ## Helper lemmas and concrete heaps -/

/-- Every bit of the 32-bit pattern of `~INSERT_MODE_MASK` other than bit
zero is set. -/
theorem maskCompl_testBit (j : Nat) (h1 : j < 32) (h2 : j ≠ 0) :
    Nat.testBit INSERT_MODE_MASK_COMPL j = true := by
  interval_cases j <;> simp_all <;> decide

/-- A 32-bit `Mode` pattern other than `0` and `1` has a bit inside
`~INSERT_MODE_MASK`, so the mode check of `Tree_NodeAppend` rejects it. -/
theorem mode_out_of_range (M : Nat) (hlt : M < 2 ^ 32) (h0 : M ≠ 0)
    (h1 : M ≠ 1) : M &&& INSERT_MODE_MASK_COMPL ≠ 0 := by
  intro hand
  have hdiv : M / 2 = 0 := by
    apply Nat.zero_of_testBit_eq_false
    intro i
    rw [← Nat.testBit_add_one]
    by_cases hi : i + 1 < 32
    · have hb := congrArg (fun n => Nat.testBit n (i + 1)) hand
      simp only [Nat.testBit_land, Nat.zero_testBit] at hb
      have hc : Nat.testBit INSERT_MODE_MASK_COMPL (i + 1) = true :=
        maskCompl_testBit (i + 1) hi (by omega)
      rw [hc] at hb
      simpa using hb
    · have hle : (2 : Nat) ^ 32 ≤ 2 ^ (i + 1) :=
        Nat.pow_le_pow_right (by norm_num) (by omega)
      exact Nat.testBit_lt_two_pow (lt_of_lt_of_le hlt hle)
  have hmod := Nat.div_add_mod M 2
  have : M % 2 < 2 := Nat.mod_lt _ (by norm_num)
  omega

/-- The four-node example tree of the spec:
`root(1, left = 2(left = 4), right = 3)`, with node addresses `0..3` and
payload `k` stored as data pointer `some k`. -/
def fourNodeTree : Heap := fun i =>
  if i = 0 then ⟨none, some 1, some 2, some 1⟩
  else if i = 1 then ⟨some 0, some 3, none, some 2⟩
  else if i = 2 then ⟨some 0, none, none, some 3⟩
  else if i = 3 then ⟨some 1, none, none, some 4⟩
  else emptyNode

/-- Any `Tree_DepthGet` result is non-negative. -/
theorem Tree_DepthGetF_nonneg :
    ∀ (fuel : Nat) (h : Heap) (r : Option Nat) (d : Int),
      Tree_DepthGetF fuel h r = some d → 0 ≤ d := by
  intro fuel
  induction fuel with
  | zero =>
    intro h r d hd
    cases r <;> simp [Tree_DepthGetF] at hd
    omega
  | succ f ih =>
    intro h r d hd
    cases r with
    | none =>
      simp [Tree_DepthGetF] at hd
      omega
    | some p =>
      simp only [Tree_DepthGetF] at hd
      split at hd
      · rename_i lD rD hL hR
        have h1 := ih h ((h p).left) lD hL
        have h2 := ih h ((h p).right) rD hR
        split at hd <;> simp only [Option.some.injEq] at hd <;> omega
      · exact absurd hd (by simp)

/-- `Tree_DepthGet` reads only the `left`/`right` fields of nodes: its
result is unchanged under any modification of `parent` and `data`
fields. -/
theorem Tree_DepthGetF_structural :
    ∀ (fuel : Nat) (h h' : Heap) (r : Option Nat),
      (∀ x, (h x).left = (h' x).left ∧ (h x).right = (h' x).right) →
      Tree_DepthGetF fuel h r = Tree_DepthGetF fuel h' r := by
  intro fuel
  induction fuel with
  | zero => intro h h' r hs; cases r <;> rfl
  | succ f ih =>
    intro h h' r hs
    cases r with
    | none => rfl
    | some p =>
      simp only [Tree_DepthGetF]
      rw [(hs p).1, (hs p).2, ih h h' _ hs, ih h h' _ hs]

/-! ## Claim theorems -/

/-- C2: on the four-node tree `root(1, left = 2(left = 4), right = 3)`,
`Tree_TravesePreOrder` invokes the callback on the payload sequence
`[1,2,4,3]`, `Tree_TraveseInOrder` on `[4,2,1,3]` and
`Tree_TravesePostOrder` on `[4,2,3,1]`, passing the same context value
unchanged to every invocation. -/
theorem c2_traversal_orders (ctx : Option Nat) :
    Tree_TravesePreOrderF 10 fourNodeTree (some 0) true ctx =
      some (ERR_SUCCESS,
        [(ctx, some 1), (ctx, some 2), (ctx, some 4), (ctx, some 3)]) ∧
    Tree_TraveseInOrderF 10 fourNodeTree (some 0) true ctx =
      some (ERR_SUCCESS,
        [(ctx, some 4), (ctx, some 2), (ctx, some 1), (ctx, some 3)]) ∧
    Tree_TravesePostOrderF 10 fourNodeTree (some 0) true ctx =
      some (ERR_SUCCESS,
        [(ctx, some 4), (ctx, some 2), (ctx, some 3), (ctx, some 1)]) :=
  ⟨rfl, rfl, rfl⟩

/-- C5: `Tree_DepthGet` returns `0` on an absent node and
`1 + max(depth(left), depth(right))` on a present node, every valid node
has depth at least `1`, a childless node has depth exactly `1`, and the
query touches no payload and mutates nothing (it depends only on the
`left`/`right` structure of the heap). -/
theorem c5_depthGet_spec :
    (∀ (fuel : Nat) (h : Heap), Tree_DepthGetF fuel h none = some 0) ∧
    (∀ (fuel : Nat) (h : Heap) (p : Nat) (lD rD : Int),
      Tree_DepthGetF fuel h ((h p).left) = some lD →
      Tree_DepthGetF fuel h ((h p).right) = some rD →
      Tree_DepthGetF (fuel + 1) h (some p) = some (1 + max lD rD)) ∧
    (∀ (fuel : Nat) (h : Heap) (p : Nat) (d : Int),
      Tree_DepthGetF fuel h (some p) = some d → 1 ≤ d) ∧
    (∀ (fuel : Nat) (h : Heap) (p : Nat),
      (h p).left = none → (h p).right = none →
      Tree_DepthGetF (fuel + 1) h (some p) = some 1) ∧
    (∀ (fuel : Nat) (h h' : Heap) (r : Option Nat),
      (∀ x, (h x).left = (h' x).left ∧ (h x).right = (h' x).right) →
      Tree_DepthGetF fuel h r = Tree_DepthGetF fuel h' r) := by
  refine ⟨?_, ?_, ?_, ?_, Tree_DepthGetF_structural⟩
  · intro fuel h; cases fuel <;> rfl
  · intro fuel h p lD rD hL hR
    have hln : 0 ≤ lD := Tree_DepthGetF_nonneg fuel h _ lD hL
    have hrn : 0 ≤ rD := Tree_DepthGetF_nonneg fuel h _ rD hR
    simp only [Tree_DepthGetF, hL, hR]
    congr 1
    rcases le_or_lt rD lD with hle | hlt
    · rw [if_pos hle, max_eq_left hle]; omega
    · rw [if_neg (by omega), max_eq_right (le_of_lt hlt)]; omega
  · intro fuel h p d hd
    cases fuel with
    | zero => exact absurd hd (by simp [Tree_DepthGetF])
    | succ f =>
      simp only [Tree_DepthGetF] at hd
      split at hd
      · rename_i lD rD hL hR
        have h1 := Tree_DepthGetF_nonneg f h _ lD hL
        have h2 := Tree_DepthGetF_nonneg f h _ rD hR
        split at hd <;> simp only [Option.some.injEq] at hd <;> omega
      · exact absurd hd (by simp)
  · intro fuel h p hl hr
    simp only [Tree_DepthGetF, hl, hr]
    rfl

/-- Witness for C5: a childless node in the all-empty heap has depth
exactly `1`. -/
theorem c5_depthGet_spec_witness :
    Tree_DepthGetF 1 (fun _ => emptyNode) (some 0) = some 1 :=
  c5_depthGet_spec.2.2.2.1 0 (fun _ => emptyNode) 0 rfl rfl

/-- C6: appending into an occupied child slot fails with `ERR_NODE_EXIST`
and leaves the heap (target node, new node, existing subtree) completely
unchanged. -/
theorem c6_append_occupied (h : Heap) (p q : Nat) :
    ((h p).left ≠ none →
      Tree_NodeAppend h (some p) (some q) INSERT_POS_LEFT =
        (ERR_NODE_EXIST, h)) ∧
    ((h p).right ≠ none →
      Tree_NodeAppend h (some p) (some q) INSERT_POS_RIGHT =
        (ERR_NODE_EXIST, h)) := by
  constructor
  · intro hl
    have m1 : INSERT_POS_LEFT &&& INSERT_MODE_MASK_COMPL = 0 := by decide
    have m2 : INSERT_POS_LEFT &&& INSERT_MODE_MASK = INSERT_POS_LEFT := by
      decide
    simp [Tree_NodeAppend, m1, m2, hl]
  · intro hr
    have m1 : INSERT_POS_RIGHT &&& INSERT_MODE_MASK_COMPL = 0 := by decide
    have m2 : ¬(INSERT_POS_RIGHT &&& INSERT_MODE_MASK = INSERT_POS_LEFT) := by
      decide
    have m3 : INSERT_POS_RIGHT &&& INSERT_MODE_MASK = INSERT_POS_RIGHT := by
      decide
    have m4 : INSERT_POS_RIGHT ≠ INSERT_POS_LEFT := by decide
    simp [Tree_NodeAppend, m1, m2, m3, m4, hr]

/-- Witness for C6: appending to the occupied left slot of the root of the
four-node tree fails with `ERR_NODE_EXIST` and changes nothing. -/
theorem c6_append_occupied_witness :
    Tree_NodeAppend fourNodeTree (some 0) (some 9) INSERT_POS_LEFT =
      (ERR_NODE_EXIST, fourNodeTree) :=
  (c6_append_occupied fourNodeTree 0 9).1 (by decide)

/-- C7: `Tree_NodeAppend` recognizes exactly the two mode values
`INSERT_POS_LEFT = 1` and `INSERT_POS_RIGHT = 0`: any other 32-bit `Mode`
pattern is rejected with `ERR_WRONG_PARAM` without mutating anything,
while the two recognized values are never rejected with
`ERR_WRONG_PARAM`. -/
theorem c7_append_mode (h : Heap) (p q : Nat) (Mode : Nat)
    (hlt : Mode < 2 ^ 32) :
    (Mode ≠ INSERT_POS_LEFT → Mode ≠ INSERT_POS_RIGHT →
      Tree_NodeAppend h (some p) (some q) Mode = (ERR_WRONG_PARAM, h)) ∧
    (Tree_NodeAppend h (some p) (some q) INSERT_POS_LEFT).1 ≠
      ERR_WRONG_PARAM ∧
    (Tree_NodeAppend h (some p) (some q) INSERT_POS_RIGHT).1 ≠
      ERR_WRONG_PARAM := by
  refine ⟨?_, ?_, ?_⟩
  · intro h1 h0
    have hm : Mode &&& INSERT_MODE_MASK_COMPL ≠ 0 :=
      mode_out_of_range Mode hlt (by simpa [INSERT_POS_RIGHT] using h0)
        (by simpa [INSERT_POS_LEFT] using h1)
    simp [Tree_NodeAppend, hm]
  · have m1 : INSERT_POS_LEFT &&& INSERT_MODE_MASK_COMPL = 0 := by decide
    have m2 : INSERT_POS_LEFT &&& INSERT_MODE_MASK = INSERT_POS_LEFT := by
      decide
    by_cases hl : (h p).left = none <;>
      simp [Tree_NodeAppend, m1, m2, hl]
  · have m1 : INSERT_POS_RIGHT &&& INSERT_MODE_MASK_COMPL = 0 := by decide
    have m2 : ¬(INSERT_POS_RIGHT &&& INSERT_MODE_MASK = INSERT_POS_LEFT) := by
      decide
    have m3 : INSERT_POS_RIGHT &&& INSERT_MODE_MASK = INSERT_POS_RIGHT := by
      decide
    have m4 : INSERT_POS_RIGHT ≠ INSERT_POS_LEFT := by decide
    by_cases hr : (h p).right = none <;>
      simp [Tree_NodeAppend, m1, m2, m3, m4, hr]

/-- Witness for C7: mode value `2` is rejected with `ERR_WRONG_PARAM` and
no mutation. -/
theorem c7_append_mode_witness :
    Tree_NodeAppend fourNodeTree (some 0) (some 3) 2 =
      (ERR_WRONG_PARAM, fourNodeTree) :=
  (c7_append_mode fourNodeTree 0 3 2 (by norm_num)).1 (by decide) (by decide)

/-- C9: every traversal called on an absent root or with an absent
callback fails with `ERR_INVALID_POINTER` and invokes the callback zero
times (empty trace, no partial walk). -/
theorem c9_traverse_invalid (fuel : Nat) (h : Heap) (r : Option Nat)
    (funPresent : Bool) (ctx : Option Nat)
    (habs : r = none ∨ funPresent = false) :
    Tree_TravesePreOrderF fuel h r funPresent ctx =
      some (ERR_INVALID_POINTER, []) ∧
    Tree_TraveseInOrderF fuel h r funPresent ctx =
      some (ERR_INVALID_POINTER, []) ∧
    Tree_TravesePostOrderF fuel h r funPresent ctx =
      some (ERR_INVALID_POINTER, []) := by
  rcases habs with rfl | rfl
  · cases fuel <;> cases funPresent <;> exact ⟨rfl, rfl, rfl⟩
  · cases fuel <;> cases r <;> exact ⟨rfl, rfl, rfl⟩

/-- Witness for C9: pre-order traversal of the four-node tree with an
absent callback reports `ERR_INVALID_POINTER` and an empty trace. -/
theorem c9_traverse_invalid_witness :
    Tree_TravesePreOrderF 10 fourNodeTree (some 0) false none =
      some (ERR_INVALID_POINTER, []) :=
  (c9_traverse_invalid 10 fourNodeTree (some 0) false none (Or.inr rfl)).1

/-- The heap in which every node is in the freshly initialized state. -/
def emptyHeap : Heap := fun _ => emptyNode

/-- The two sequential slot-clearing conditionals of `Tree_NodeDelete`
compute the record that clears exactly the slots pointing to `p`. -/
theorem clear_steps (n : Node) (p : Nat) :
    (let n1 := if n.left = some p then { n with left := none } else n;
     if n1.right = some p then { n1 with right := none } else n1) =
    { n with left := if n.left = some p then none else n.left,
             right := if n.right = some p then none else n.right } := by
  by_cases h1 : n.left = some p <;> by_cases h2 : n.right = some p <;>
    simp [h1, h2]

/-- C3: `Tree_NodeDelete` fails with `ERR_FAILURE` and changes nothing
when either child slot is occupied; on a leaf it succeeds, resets the node
to the empty state, clears exactly the slots of the parent that pointed to
the node (leaving the parent's other fields unchanged) and leaves every
other node untouched. -/
theorem c3_nodeDelete_spec (h : Heap) (p : Nat) :
    (((h p).left ≠ none ∨ (h p).right ≠ none) →
      Tree_NodeDelete h p = (ERR_FAILURE, h)) ∧
    ((h p).left = none → (h p).right = none →
      (Tree_NodeDelete h p).1 = ERR_SUCCESS ∧
      (Tree_NodeDelete h p).2 p = emptyNode ∧
      ∀ x, x ≠ p →
        (Tree_NodeDelete h p).2 x =
          if (h p).parent = some x then
            { h x with
              left := if (h x).left = some p then none else (h x).left,
              right := if (h x).right = some p then none else (h x).right }
          else h x) := by
  constructor
  · intro hc
    simp only [Tree_NodeDelete, if_pos hc]
  · intro hl hr
    have hc : ¬((h p).left ≠ none ∨ (h p).right ≠ none) := by simp [hl, hr]
    refine ⟨by simp only [Tree_NodeDelete, if_neg hc], ?_, ?_⟩
    · simp only [Tree_NodeDelete, if_neg hc, Tree_NodeInit, Heap.update_same]
    · intro x hx
      cases hpar : (h p).parent with
      | none =>
        simp only [Tree_NodeDelete, if_neg hc, Tree_NodeInit, hpar]
        rw [Heap.update_other _ _ _ _ hx]
        simp
      | some pq =>
        simp only [Tree_NodeDelete, if_neg hc, Tree_NodeInit, hpar]
        rw [Heap.update_other _ _ _ _ hx]
        by_cases hxq : x = pq
        · subst hxq
          rw [Heap.update_same, if_pos rfl]
          by_cases h1 : (h x).left = some p <;>
            by_cases h2 : (h x).right = some p <;>
            simp [h1, h2]
        · rw [Heap.update_other _ _ _ _ hxq,
            if_neg (fun e => hxq (Option.some.inj e).symm)]

/-- Witness for C3: deleting leaf node `3` of the four-node tree succeeds,
resets node `3` and clears the left slot of its parent `1` while keeping
the parent's other fields. -/
theorem c3_nodeDelete_spec_witness :
    (Tree_NodeDelete fourNodeTree 3).1 = ERR_SUCCESS ∧
    (Tree_NodeDelete fourNodeTree 3).2 3 = emptyNode ∧
    (Tree_NodeDelete fourNodeTree 3).2 1 = ⟨some 0, none, none, some 2⟩ := by
  obtain ⟨a, b, c⟩ := (c3_nodeDelete_spec fourNodeTree 3).2 rfl rfl
  refine ⟨a, b, ?_⟩
  rw [c 1 (by decide)]
  decide

/-- Concrete heap refuting C1 as literally stated: node `0` (the append
target `A`) is in a pre-append state with `left` absent but with its
`right` slot pointing at the freshly initialized node `1` (the appendee
`B`). -/
def c1CexHeap : Heap := fun i =>
  if i = 0 then ⟨none, none, some 1, some 5⟩ else emptyNode

/-- Counterexample for C1.  First input: `A = 0` with `A.left` absent and
`A.right = some 1`, `B = 1` freshly initialized; after
`append(A, B, LEFT)` then `delete(B)`, node `A` is NOT restored (its
`right` slot has been cleared as well, because `Tree_NodeDelete` clears
every parent slot that points at the deleted node).  Second input:
`A = B = 0` freshly initialized; the round trip leaves `A` attached to
itself instead of restoring it. -/
theorem c1_roundTrip_counterexample :
    (c1CexHeap 1 = emptyNode ∧ (c1CexHeap 0).left = none ∧
      (Tree_NodeDelete
          (Tree_NodeAppend c1CexHeap (some 0) (some 1) INSERT_POS_LEFT).2
          1).2 0 ≠ c1CexHeap 0) ∧
    (emptyHeap 0 = emptyNode ∧
      (Tree_NodeDelete
          (Tree_NodeAppend emptyHeap (some 0) (some 0) INSERT_POS_LEFT).2
          0).2 0 ≠ emptyHeap 0) := by
  decide

/-- A record update that writes the value a field already has is the
identity. -/
theorem node_left_self (n : Node) (hn : n.left = none) :
    { n with left := none } = n := by
  cases n
  simp_all

/-- C1 (amended): if `A` and `B` are distinct nodes, `B` is freshly
initialized and not referenced by `A`'s `right` slot, and `A`'s `left`
slot is absent, then `append(A, B, LEFT)` followed by `delete(B)` restores
`A` exactly, fully resets `B`, and touches no other node. -/
theorem c1_roundTrip_amended (h : Heap) (A B : Nat) (hAB : A ≠ B)
    (hB : h B = emptyNode) (hAl : (h A).left = none)
    (hAr : (h A).right ≠ some B) :
    (Tree_NodeAppend h (some A) (some B) INSERT_POS_LEFT).1 = ERR_SUCCESS ∧
    (Tree_NodeDelete
        (Tree_NodeAppend h (some A) (some B) INSERT_POS_LEFT).2 B).1 =
      ERR_SUCCESS ∧
    (Tree_NodeDelete
        (Tree_NodeAppend h (some A) (some B) INSERT_POS_LEFT).2 B).2 A =
      h A ∧
    (Tree_NodeDelete
        (Tree_NodeAppend h (some A) (some B) INSERT_POS_LEFT).2 B).2 B =
      emptyNode ∧
    (∀ x, x ≠ A → x ≠ B →
      (Tree_NodeDelete
          (Tree_NodeAppend h (some A) (some B) INSERT_POS_LEFT).2 B).2 x =
        h x) := by
  have hBA : B ≠ A := fun e => hAB e.symm
  have m1 : INSERT_POS_LEFT &&& INSERT_MODE_MASK_COMPL = 0 := by decide
  have m2 : INSERT_POS_LEFT &&& INSERT_MODE_MASK = INSERT_POS_LEFT := by
    decide
  have happ : Tree_NodeAppend h (some A) (some B) INSERT_POS_LEFT =
      (ERR_SUCCESS,
        Heap.update (Heap.update h A { h A with left := some B }) B
          ⟨some A, none, none, none⟩) := by
    simp only [Tree_NodeAppend, m1, m2, hAl, ne_eq, not_true_eq_false,
      if_false, if_pos rfl, ite_true]
    rw [show (Heap.update h A { h A with left := some B } B) = h B from
      Heap.update_other _ _ _ _ hBA, hB]
    simp [emptyNode]
  set h2 := Heap.update (Heap.update h A { h A with left := some B }) B
    ⟨some A, none, none, none⟩ with hh2
  have h2B : h2 B = ⟨some A, none, none, none⟩ := Heap.update_same _ _ _
  have h2A : h2 A = { h A with left := some B } := by
    rw [hh2, Heap.update_other _ _ _ _ hAB, Heap.update_same]
  have h2x : ∀ x, x ≠ A → x ≠ B → h2 x = h x := by
    intro x hxA hxB
    rw [hh2, Heap.update_other _ _ _ _ hxB, Heap.update_other _ _ _ _ hxA]
  have hdel := (c3_nodeDelete_spec h2 B).2 (by rw [h2B]) (by rw [h2B])
  rw [happ]
  refine ⟨rfl, hdel.1, ?_, hdel.2.1, ?_⟩
  · rw [hdel.2.2 A hAB, if_pos (by rw [h2B]), h2A]
    simp only [hAr]
    simp only [ite_true, ite_false, if_pos rfl, if_neg hAr]
    exact node_left_self (h A) hAl
  · intro x hxA hxB
    rw [hdel.2.2 x hxB,
      if_neg (by rw [h2B]; exact fun e => hxA (Option.some.inj e).symm),
      h2x x hxA hxB]

/-- Witness for C1 (amended): with `A = 0`, `B = 1` in the all-empty heap
the round trip restores `A` and resets `B`. -/
theorem c1_roundTrip_amended_witness :
    (Tree_NodeDelete
        (Tree_NodeAppend emptyHeap (some 0) (some 1) INSERT_POS_LEFT).2
        1).2 0 = emptyHeap 0 ∧
    (Tree_NodeDelete
        (Tree_NodeAppend emptyHeap (some 0) (some 1) INSERT_POS_LEFT).2
        1).2 1 = emptyNode := by
  obtain ⟨-, -, h3, h4, -⟩ :=
    c1_roundTrip_amended emptyHeap 0 1 (by decide) rfl rfl (by decide)
  exact ⟨h3, h4⟩

/-- Counterexample for C8: `Tree_NodeDestory` on a valid `ppNode` whose
pointee is already absent passes `NULL` to `Tree_NodeDelete`, whose
`ASSERT(NULL != pNode)` never returns (busy loop in debug builds,
`NULL`-dereference once `ASSERT` is compiled out): no failure code is ever
returned, so the call is not a safe failing no-op. -/
theorem c8_destory_counterexample :
    ¬ ∃ out, Tree_NodeDestory ⟨emptyHeap, []⟩ none = some out := by
  simp [Tree_NodeDestory]

/-- C8 (amended): `Tree_NodeDestory` on an absent pointee hits the
`Tree_NodeDelete` contract violation and returns nothing; on a valid
pointee whose delete fails (a node with a child), it propagates the
failure code, frees no storage, and leaves the heap and the caller's
reference unchanged. -/
theorem c8_destory_amended (st : DynState) (p : Nat)
    (hchild : (st.heap p).left ≠ none ∨ (st.heap p).right ≠ none) :
    Tree_NodeDestory st (some p) = some (ERR_FAILURE, st, some p) ∧
    (∀ st' : DynState, Tree_NodeDestory st' none = none) := by
  constructor
  · have hdel : Tree_NodeDelete st.heap p = (ERR_FAILURE, st.heap) :=
      (c3_nodeDelete_spec st.heap p).1 hchild
    simp [Tree_NodeDestory, hdel]
  · intro st'
    rfl

/-- Witness for C8 (amended): destroying node `0` of the four-node tree
(which has children) propagates `ERR_FAILURE` and frees nothing. -/
theorem c8_destory_amended_witness :
    Tree_NodeDestory ⟨fourNodeTree, []⟩ (some 0) =
      some (ERR_FAILURE, ⟨fourNodeTree, []⟩, some 0) :=
  (c8_destory_amended ⟨fourNodeTree, []⟩ 0 (by decide)).1

/-! ## Well-formed subtrees and `Tree_SubTreeDelete_Static` (C4) -/

/-- Clear exactly the child slots of `n` that point at `p` — the combined
effect of the two conditionals in `Tree_NodeDelete`. -/
def Node.clearChild (n : Node) (p : Nat) : Node :=
  { n with left := if n.left = some p then none else n.left,
           right := if n.right = some p then none else n.right }

/-- `WfTree h r ns`: the reference `r` points (in heap `h`) at a finite,
well-formed binary tree whose node addresses are exactly the list `ns`:
child subtrees are disjoint, no node recurs, and every child's `parent`
field points back at its parent node. -/
inductive WfTree (h : Heap) : Option Nat → List Nat → Prop where
  | nil : WfTree h none []
  | node (p : Nat) (ls rs ns : List Nat)
      (hL : WfTree h ((h p).left) ls)
      (hR : WfTree h ((h p).right) rs)
      (hlp : ∀ l, (h p).left = some l → (h l).parent = some p)
      (hrp : ∀ r, (h p).right = some r → (h r).parent = some p)
      (hpl : p ∉ ls) (hpr : p ∉ rs)
      (hdis : ∀ x, x ∈ ls → x ∉ rs)
      (hns : ns = p :: (ls ++ rs)) :
      WfTree h (some p) ns

theorem WfTree_none_nil (h : Heap) (ns : List Nat)
    (hw : WfTree h none ns) : ns = [] := by
  cases hw
  rfl

theorem WfTree_root_mem (h : Heap) (p : Nat) (ns : List Nat)
    (hw : WfTree h (some p) ns) : p ∈ ns := by
  cases hw with
  | node _ ls rs _ _ _ _ _ _ _ _ hns =>
    rw [hns]
    exact List.mem_cons_self _ _

/-- `WfTree` only reads the heap at the addresses of the tree itself. -/
theorem WfTree_congr (h h' : Heap) (r : Option Nat) (ns : List Nat)
    (hw : WfTree h r ns) (hagree : ∀ x ∈ ns, h' x = h x) :
    WfTree h' r ns := by
  induction hw with
  | nil => exact WfTree.nil
  | node p ls rs ns hL hR hlp hrp hpl hpr hdis hns ihL ihR =>
    have hpmem : p ∈ ns := by
      rw [hns]; exact List.mem_cons_self _ _
    have hp' : h' p = h p := hagree p hpmem
    have hlsub : ∀ x ∈ ls, h' x = h x := fun x hx =>
      hagree x (by
        rw [hns]
        exact List.mem_cons_of_mem _ (List.mem_append_left _ hx))
    have hrsub : ∀ x ∈ rs, h' x = h x := fun x hx =>
      hagree x (by
        rw [hns]
        exact List.mem_cons_of_mem _ (List.mem_append_right _ hx))
    refine WfTree.node p ls rs ns ?_ ?_ ?_ ?_ hpl hpr hdis hns
    · rw [hp']; exact ihL hlsub
    · rw [hp']; exact ihR hrsub
    · intro l hl
      rw [hp'] at hl
      have hlm : l ∈ ls := by
        rw [hl] at hL
        exact WfTree_root_mem h l ls hL
      rw [hlsub l hlm]
      exact hlp l hl
    · intro rr hrr
      rw [hp'] at hrr
      have hrm : rr ∈ rs := by
        rw [hrr] at hR
        exact WfTree_root_mem h rr rs hR
      rw [hrsub rr hrm]
      exact hrp rr hrr

theorem subTreeDeleteF_none (fuel : Nat) (h : Heap) :
    subTreeDeleteF fuel h none = some (ERR_FAILURE, h) := by
  cases fuel <;> rfl

theorem subTreeDeleteF_wf :
    ∀ (fuel : Nat) (h : Heap) (r : Option Nat) (ns : List Nat),
      WfTree h r ns → ns.length + 1 ≤ fuel →
      ∃ c h', subTreeDeleteF fuel h r = some (c, h') ∧
        (∀ x ∈ ns, h' x = emptyNode) ∧
        (∀ p, r = some p → c = ERR_SUCCESS ∧
          ∀ x, x ∉ ns →
            h' x = if (h p).parent = some x then Node.clearChild (h x) p
                   else h x) ∧
        (r = none → h' = h) := by
  intro fuel
  induction fuel with
  | zero => intro h r ns _ hlen; omega
  | succ f ih =>
    intro h r ns hw hlen
    cases r with
    | none =>
      have hns := WfTree_none_nil h ns hw
      subst hns
      refine ⟨ERR_FAILURE, h, subTreeDeleteF_none _ _, by simp, ?_, fun _ => rfl⟩
      intro p hp
      exact absurd hp (by simp)
    | some p =>
      cases hw with
      | node _ ls rs _ hL hR hlp hrp hpl hpr hdis hns =>
        subst hns
        have hlf : ls.length + 1 ≤ f := by
          simp [List.length_append] at hlen; omega
        have hrf : rs.length + 1 ≤ f := by
          simp [List.length_append] at hlen; omega
        rcases hLeft : (h p).left with _ | l
        · -- left child absent
          rw [hLeft] at hL
          have hls := WfTree_none_nil h ls hL
          subst hls
          rcases hRight : (h p).right with _ | rr
          · -- right child absent too
            rw [hRight] at hR
            have hrs := WfTree_none_nil h rs hR
            subst hrs
            have hkey : subTreeDeleteF (f + 1) h (some p) =
                some (ERR_SUCCESS, (Tree_NodeDelete h p).2) := by
              simp [subTreeDeleteF, hLeft, hRight, subTreeDeleteF_none]
            obtain ⟨hc1, hc2, hc3⟩ := (c3_nodeDelete_spec h p).2 hLeft hRight
            refine ⟨ERR_SUCCESS, (Tree_NodeDelete h p).2, hkey, ?_, ?_, by simp⟩
            · intro x hx
              have : x = p := by simpa using hx
              subst this
              exact hc2
            · intro p' hp'
              injection hp' with e
              subst e
              refine ⟨rfl, ?_⟩
              intro x hxns
              have hxp : x ≠ p := by simp at hxns; tauto
              rw [hc3 x hxp]
              rfl
          · -- right child present
            have hRrr : WfTree h (some rr) rs := hRight ▸ hR
            have hrrmem : rr ∈ rs := WfTree_root_mem h rr rs hRrr
            obtain ⟨c2, h2, e2, hin2, hsome2, -⟩ := ih h (some rr) rs hRrr hrf
            obtain ⟨-, hout2⟩ := hsome2 rr rfl
            have hrrparent : (h rr).parent = some p := hrp rr hRight
            have h2p : h2 p = ⟨(h p).parent, none, none, (h p).data⟩ := by
              have hthis := hout2 p hpr
              rw [if_pos hrrparent] at hthis
              rw [hthis]
              simp [Node.clearChild, hLeft, hRight]
            have hkey : subTreeDeleteF (f + 1) h (some p) =
                some (ERR_SUCCESS,
                  (Tree_NodeDelete
                    (Heap.update h2 p { h2 p with right := none }) p).2) := by
              simp [subTreeDeleteF, hLeft, hRight, subTreeDeleteF_none, e2]
            have hgp : (Heap.update h2 p { h2 p with right := none }) p =
                ⟨(h p).parent, none, none, (h p).data⟩ := by
              rw [Heap.update_same, h2p]
            obtain ⟨-, hd2, hd3⟩ :=
              (c3_nodeDelete_spec
                (Heap.update h2 p { h2 p with right := none }) p).2
                (by rw [hgp]) (by rw [hgp])
            refine ⟨ERR_SUCCESS, _, hkey, ?_, ?_, by simp⟩
            · intro x hx
              rcases List.mem_cons.mp hx with rfl | hx'
              · exact hd2
              · have hxrs : x ∈ rs := by simpa using hx'
                have hxp : x ≠ p := fun e => hpr (e ▸ hxrs)
                have hg : (Heap.update h2 p { h2 p with right := none }) x =
                    emptyNode := by
                  rw [Heap.update_other _ _ _ _ hxp]
                  exact hin2 x hxrs
                rw [hd3 x hxp]
                split
                · rw [hg]; simp [emptyNode]
                · exact hg
            · intro p' hp'
              injection hp' with e
              subst e
              refine ⟨rfl, ?_⟩
              intro x hxns
              simp [not_or] at hxns
              obtain ⟨hxp, hxrs⟩ := hxns
              rw [hd3 x hxp]
              have hgx : (Heap.update h2 p { h2 p with right := none }) x =
                  h x := by
                rw [Heap.update_other _ _ _ _ hxp]
                have hthis := hout2 x hxrs
                rw [hrrparent,
                  if_neg (fun e => hxp (Option.some.inj e).symm)] at hthis
                exact hthis
              have hgpar :
                  ((Heap.update h2 p { h2 p with right := none }) p).parent =
                    (h p).parent := by
                rw [hgp]
              rw [hgx, hgpar]
              rfl
        · -- left child present
          have hLl : WfTree h (some l) ls := hLeft ▸ hL
          have hlmem : l ∈ ls := WfTree_root_mem h l ls hLl
          obtain ⟨c1, h1, e1, hin1, hsome1, -⟩ := ih h (some l) ls hLl hlf
          obtain ⟨-, hout1⟩ := hsome1 l rfl
          have hlparent : (h l).parent = some p := hlp l hLeft
          have hrl : (h p).right ≠ some l := by
            rcases hR0 : (h p).right with _ | rr
            · simp
            · have hrm : rr ∈ rs := WfTree_root_mem h rr rs (hR0 ▸ hR)
              intro e
              exact hdis l hlmem ((Option.some.inj e) ▸ hrm)
          have h1p : h1 p = ⟨(h p).parent, none, (h p).right, (h p).data⟩ := by
            have hthis := hout1 p hpl
            rw [if_pos hlparent] at hthis
            rw [hthis]
            simp [Node.clearChild, hLeft, hrl]
          have hg1p : (Heap.update h1 p { h1 p with left := none }) p =
              ⟨(h p).parent, none, (h p).right, (h p).data⟩ := by
            rw [Heap.update_same, h1p]
          have hg1in : ∀ x ∈ ls,
              (Heap.update h1 p { h1 p with left := none }) x = emptyNode := by
            intro x hx
            have hxp : x ≠ p := fun e => hpl (e ▸ hx)
            rw [Heap.update_other _ _ _ _ hxp]
            exact hin1 x hx
          have hg1out : ∀ x, x ∉ ls → x ≠ p →
              (Heap.update h1 p { h1 p with left := none }) x = h x := by
            intro x hx hxp
            rw [Heap.update_other _ _ _ _ hxp]
            have hthis := hout1 x hx
            rw [hlparent,
              if_neg (fun e => hxp (Option.some.inj e).symm)] at hthis
            exact hthis
          rcases hRight : (h p).right with _ | rr
          · -- right child absent
            rw [hRight] at hR
            have hrs := WfTree_none_nil h rs hR
            subst hrs
            have hg1right :
                ((Heap.update h1 p { h1 p with left := none }) p).right =
                  none := by
              rw [hg1p]; exact hRight
            have hkey : subTreeDeleteF (f + 1) h (some p) =
                some (ERR_SUCCESS,
                  (Tree_NodeDelete
                    (Heap.update h1 p { h1 p with left := none }) p).2) := by
              simp [subTreeDeleteF, hLeft, e1, hg1right, subTreeDeleteF_none]
            obtain ⟨-, hd2, hd3⟩ :=
              (c3_nodeDelete_spec
                (Heap.update h1 p { h1 p with left := none }) p).2
                (by rw [hg1p]) hg1right
            refine ⟨ERR_SUCCESS, _, hkey, ?_, ?_, by simp⟩
            · intro x hx
              rcases List.mem_cons.mp hx with rfl | hx2
              · exact hd2
              · have hxls : x ∈ ls := by simpa using hx2
                have hxp : x ≠ p := fun e => hpl (e ▸ hxls)
                have hg := hg1in x hxls
                rw [hd3 x hxp]
                split
                · rw [hg]; simp [emptyNode]
                · exact hg
            · intro p2 hp2
              injection hp2 with e
              subst e
              refine ⟨rfl, ?_⟩
              intro x hxns
              simp [not_or] at hxns
              obtain ⟨hxp, hxls⟩ := hxns
              rw [hd3 x hxp]
              have hgpar :
                  ((Heap.update h1 p { h1 p with left := none }) p).parent =
                    (h p).parent := by
                rw [hg1p]
              rw [hg1out x hxls hxp, hgpar]
              rfl
          · -- right child present
            have hRrr : WfTree h (some rr) rs := hRight ▸ hR
            have hrrmem : rr ∈ rs := WfTree_root_mem h rr rs hRrr
            have hg1rs : WfTree (Heap.update h1 p { h1 p with left := none })
                (some rr) rs :=
              WfTree_congr h _ (some rr) rs hRrr
                (fun x hx =>
                  hg1out x (fun hxl => hdis x hxl hx) (fun e => hpr (e ▸ hx)))
            obtain ⟨c2, h2, e2, hin2, hsome2, -⟩ := ih _ (some rr) rs hg1rs hrf
            obtain ⟨-, hout2⟩ := hsome2 rr rfl
            have hg1rrpar :
                ((Heap.update h1 p { h1 p with left := none }) rr).parent =
                  some p := by
              rw [hg1out rr (fun hxl => hdis rr hxl hrrmem)
                (fun e => hpr (e ▸ hrrmem))]
              exact hrp rr hRight
            have hg1right :
                ((Heap.update h1 p { h1 p with left := none }) p).right =
                  some rr := by
              rw [hg1p]; exact hRight
            have h2p : h2 p = ⟨(h p).parent, none, none, (h p).data⟩ := by
              have hthis := hout2 p hpr
              rw [if_pos hg1rrpar] at hthis
              rw [hthis, hg1p]
              simp [Node.clearChild, hRight]
            have h2'p : (Heap.update h2 p { h2 p with right := none }) p =
                ⟨(h p).parent, none, none, (h p).data⟩ := by
              rw [Heap.update_same, h2p]
            have hkey : subTreeDeleteF (f + 1) h (some p) =
                some (ERR_SUCCESS,
                  (Tree_NodeDelete
                    (Heap.update h2 p { h2 p with right := none }) p).2) := by
              simp [subTreeDeleteF, hLeft, e1, hg1right, e2]
            obtain ⟨-, hd2, hd3⟩ :=
              (c3_nodeDelete_spec
                (Heap.update h2 p { h2 p with right := none }) p).2
                (by rw [h2'p]) (by rw [h2'p])
            refine ⟨ERR_SUCCESS, _, hkey, ?_, ?_, by simp⟩
            · intro x hx
              rcases List.mem_cons.mp hx with rfl | hx2
              · exact hd2
              · rcases List.mem_append.mp hx2 with hxl | hxr
                · have hxp : x ≠ p := fun e => hpl (e ▸ hxl)
                  have hxrs : x ∉ rs := hdis x hxl
                  have hx2e : h2 x = emptyNode := by
                    have hthis := hout2 x hxrs
                    rw [hg1rrpar,
                      if_neg (fun e => hxp (Option.some.inj e).symm)] at hthis
                    rw [hthis]
                    exact hg1in x hxl
                  have hg : (Heap.update h2 p { h2 p with right := none }) x =
                      emptyNode := by
                    rw [Heap.update_other _ _ _ _ hxp]; exact hx2e
                  rw [hd3 x hxp]
                  split
                  · rw [hg]; simp [emptyNode]
                  · exact hg
                · have hxp : x ≠ p := fun e => hpr (e ▸ hxr)
                  have hg : (Heap.update h2 p { h2 p with right := none }) x =
                      emptyNode := by
                    rw [Heap.update_other _ _ _ _ hxp]; exact hin2 x hxr
                  rw [hd3 x hxp]
                  split
                  · rw [hg]; simp [emptyNode]
                  · exact hg
            · intro p2 hp2
              injection hp2 with e
              subst e
              refine ⟨rfl, ?_⟩
              intro x hxns
              simp [not_or] at hxns
              obtain ⟨hxp, hxls, hxrs⟩ := hxns
              rw [hd3 x hxp]
              have hgx : (Heap.update h2 p { h2 p with right := none }) x =
                  h x := by
                rw [Heap.update_other _ _ _ _ hxp]
                have hthis := hout2 x hxrs
                rw [hg1rrpar,
                  if_neg (fun e => hxp (Option.some.inj e).symm)] at hthis
                rw [hthis]
                exact hg1out x hxls hxp
              have hgpar :
                  ((Heap.update h2 p { h2 p with right := none }) p).parent =
                    (h p).parent := by
                rw [h2'p]
              rw [hgx, hgpar]
              rfl

/-- C4: deleting a well-formed non-empty subtree succeeds, resets every
node of the subtree to the empty state and sets the caller's root
reference to absent. -/
theorem c4_subTreeDelete_spec (fuel : Nat) (h : Heap) (p : Nat)
    (ns : List Nat) (hwf : WfTree h (some p) ns)
    (hfuel : ns.length + 1 ≤ fuel) :
    ∃ h', Tree_SubTreeDelete_Static fuel h (some p) =
        some (ERR_SUCCESS, h', none) ∧
      ∀ x ∈ ns, h' x = emptyNode := by
  obtain ⟨c, h', e, hin, hsome, -⟩ :=
    subTreeDeleteF_wf fuel h (some p) ns hwf hfuel
  obtain ⟨hc, -⟩ := hsome p rfl
  subst hc
  exact ⟨h', by simp [Tree_SubTreeDelete_Static, e], hin⟩

/-- The three-node left chain `0 → 1 → 2` of the spec's subtree-deletion
test. -/
def threeChainHeap : Heap := fun i =>
  if i = 0 then ⟨none, some 1, none, none⟩
  else if i = 1 then ⟨some 0, some 2, none, none⟩
  else if i = 2 then ⟨some 1, none, none, none⟩
  else emptyNode

theorem threeChain_wf : WfTree threeChainHeap (some 0) [0, 1, 2] := by
  have hw2 : WfTree threeChainHeap (some 2) [2] := by
    refine WfTree.node 2 [] [] [2] ?_ ?_ ?_ ?_ (by decide) (by decide)
      (by simp) rfl
    · show WfTree threeChainHeap none []
      exact WfTree.nil
    · show WfTree threeChainHeap none []
      exact WfTree.nil
    · intro l hl
      rw [show (threeChainHeap 2).left = none from rfl] at hl
      exact Option.noConfusion hl
    · intro r hr
      rw [show (threeChainHeap 2).right = none from rfl] at hr
      exact Option.noConfusion hr
  have hw1 : WfTree threeChainHeap (some 1) [1, 2] := by
    refine WfTree.node 1 [2] [] [1, 2] ?_ ?_ ?_ ?_ (by decide) (by decide)
      (by simp) rfl
    · show WfTree threeChainHeap (some 2) [2]
      exact hw2
    · show WfTree threeChainHeap none []
      exact WfTree.nil
    · intro l hl
      rw [show (threeChainHeap 1).left = some 2 from rfl] at hl
      injection hl with e
      subst e
      decide
    · intro r hr
      rw [show (threeChainHeap 1).right = none from rfl] at hr
      exact Option.noConfusion hr
  refine WfTree.node 0 [1, 2] [] [0, 1, 2] ?_ ?_ ?_ ?_ (by decide) (by decide)
    (by simp) rfl
  · show WfTree threeChainHeap (some 1) [1, 2]
    exact hw1
  · show WfTree threeChainHeap none []
    exact WfTree.nil
  · intro l hl
    rw [show (threeChainHeap 0).left = some 1 from rfl] at hl
    injection hl with e
    subst e
    decide
  · intro r hr
    rw [show (threeChainHeap 0).right = none from rfl] at hr
    exact Option.noConfusion hr

/-- Witness for C4: deleting the three-node chain resets all three nodes
and the caller's reference becomes absent. -/
theorem c4_subTreeDelete_spec_witness :
    ∃ h', Tree_SubTreeDelete_Static 4 threeChainHeap (some 0) =
        some (ERR_SUCCESS, h', none) ∧
      ∀ x ∈ [0, 1, 2], h' x = emptyNode :=
  c4_subTreeDelete_spec 4 threeChainHeap 0 [0, 1, 2] threeChain_wf
    (by decide)

/-! ## The parent/child back-reference invariant (C10) -/

/-- The structural invariant of the spec: whenever a node's `parent`
reference is present, that parent's `left` or `right` slot points back at
the node. -/
def ParentInv (h : Heap) : Prop :=
  ∀ a b, (h a).parent = some b →
    (h b).left = some a ∨ (h b).right = some a

/-- Node `q` occupies some child slot of the structure. -/
def attachedIn (h : Heap) (q : Nat) : Prop :=
  ∃ x, (h x).left = some q ∨ (h x).right = some q

/-- One call of the public mutating API (`Tree_NodeInit`,
`Tree_NodeAppend`, `Tree_NodeDelete`, `Tree_SubTreeDelete_Static`). -/
inductive TreeOp where
  | init : Nat → TreeOp
  | append : Option Nat → Option Nat → Nat → TreeOp
  | delete : Nat → TreeOp
  | subDel : Nat → Option Nat → TreeOp

/-- Execute one operation; `none` when the operation never returns
(`ASSERT` fault or unbounded recursion). -/
def TreeOp.exec : TreeOp → Heap → Option Heap
  | .init p, h => some (Tree_NodeInit h p)
  | .append pNode pNew m, h => some (Tree_NodeAppend h pNode pNew m).2
  | .delete p, h => some (Tree_NodeDelete h p).2
  | .subDel fuel r, h =>
    match subTreeDeleteF fuel h r with
    | none => none
    | some (_, h') => some h'

/-- The caller discipline stated by the claim: a node that is already
attached in some child slot is never appended again. -/
def noDoubleAttach (h : Heap) : TreeOp → Prop
  | .append _ (some q) _ => ¬ attachedIn h q
  | _ => True

/-- The additional discipline the amended claim needs: `Tree_NodeInit` is
only applied to nodes that currently hold no child. -/
def initOnLeaf (h : Heap) : TreeOp → Prop
  | .init p => (h p).left = none ∧ (h p).right = none
  | _ => True

/-- An operation sequence as quantified by C1O as literally stated: every
append respects `noDoubleAttach` and every step returns. -/
inductive LegalRunOrig : Heap → List TreeOp → Heap → Prop where
  | nil (h : Heap) : LegalRunOrig h [] h
  | cons (h h1 h2 : Heap) (op : TreeOp) (ops : List TreeOp) :
      noDoubleAttach h op → op.exec h = some h1 →
      LegalRunOrig h1 ops h2 → LegalRunOrig h (op :: ops) h2

/-- An operation sequence under the amended caller discipline:
additionally, nodes are only re-initialized while childless. -/
inductive LegalRun : Heap → List TreeOp → Heap → Prop where
  | nil (h : Heap) : LegalRun h [] h
  | cons (h h1 h2 : Heap) (op : TreeOp) (ops : List TreeOp) :
      noDoubleAttach h op → initOnLeaf h op → op.exec h = some h1 →
      LegalRun h1 ops h2 → LegalRun h (op :: ops) h2

theorem parentInv_init (h : Heap) (p : Nat) (hl : (h p).left = none)
    (hr : (h p).right = none) (hi : ParentInv h) :
    ParentInv (Tree_NodeInit h p) := by
  intro a b hab
  by_cases hap : a = p
  · subst hap
    rw [Tree_NodeInit, Heap.update_same] at hab
    exact absurd hab (by simp [emptyNode])
  · rw [Tree_NodeInit, Heap.update_other _ _ _ _ hap] at hab
    have hw := hi a b hab
    by_cases hbp : b = p
    · subst hbp
      rw [hl, hr] at hw
      rcases hw with hw | hw <;> exact Option.noConfusion hw
    · rw [Tree_NodeInit, Heap.update_other _ _ _ _ hbp]
      exact hw


theorem parentInv_attach_left (h : Heap) (p q : Nat)
    (hln : (h p).left = none) (hi : ParentInv h) :
    ParentInv (Heap.update (Heap.update h p { h p with left := some q }) q
      { (Heap.update h p { h p with left := some q }) q with
          parent := some p }) := by
  have Hpar : ∀ x,
      ((Heap.update (Heap.update h p { h p with left := some q }) q
        { (Heap.update h p { h p with left := some q }) q with
            parent := some p }) x).parent =
        if x = q then some p else (h x).parent := by
    intro x
    by_cases hxq : x = q
    · rw [if_pos hxq, hxq, Heap.update_same]
    · rw [if_neg hxq, Heap.update_other _ _ _ _ hxq]
      by_cases hxp : x = p
      · rw [hxp, Heap.update_same]
      · rw [Heap.update_other _ _ _ _ hxp]
  have Hleft : ∀ x,
      ((Heap.update (Heap.update h p { h p with left := some q }) q
        { (Heap.update h p { h p with left := some q }) q with
            parent := some p }) x).left =
        if x = p then some q else (h x).left := by
    intro x
    by_cases hxq : x = q
    · rw [hxq, Heap.update_same]
      show ((Heap.update h p { h p with left := some q }) q).left = _
      by_cases hqp : q = p
      · rw [if_pos hqp, hqp, Heap.update_same]
      · rw [if_neg hqp, Heap.update_other _ _ _ _ hqp]
    · rw [Heap.update_other _ _ _ _ hxq]
      by_cases hxp : x = p
      · rw [if_pos hxp, hxp, Heap.update_same]
      · rw [if_neg hxp, Heap.update_other _ _ _ _ hxp]
  have Hright : ∀ x,
      ((Heap.update (Heap.update h p { h p with left := some q }) q
        { (Heap.update h p { h p with left := some q }) q with
            parent := some p }) x).right = (h x).right := by
    intro x
    by_cases hxq : x = q
    · rw [hxq, Heap.update_same]
      show ((Heap.update h p { h p with left := some q }) q).right = _
      by_cases hqp : q = p
      · rw [hqp, Heap.update_same]
      · rw [Heap.update_other _ _ _ _ hqp]
    · rw [Heap.update_other _ _ _ _ hxq]
      by_cases hxp : x = p
      · rw [hxp, Heap.update_same]
      · rw [Heap.update_other _ _ _ _ hxp]
  intro a b hab
  rw [Hpar a] at hab
  by_cases haq : a = q
  · rw [if_pos haq] at hab
    have hbp : b = p := (Option.some.inj hab).symm
    left
    rw [Hleft b, hbp, if_pos rfl, haq]
  · rw [if_neg haq] at hab
    have hw := hi a b hab
    rcases hw with hw | hw
    · by_cases hbp : b = p
      · rw [hbp, hln] at hw
        exact Option.noConfusion hw
      · left
        rw [Hleft b, if_neg hbp]
        exact hw
    · right
      rw [Hright b]
      exact hw

theorem parentInv_attach_right (h : Heap) (p q : Nat)
    (hrn : (h p).right = none) (hi : ParentInv h) :
    ParentInv (Heap.update (Heap.update h p { h p with right := some q }) q
      { (Heap.update h p { h p with right := some q }) q with
          parent := some p }) := by
  have Hpar : ∀ x,
      ((Heap.update (Heap.update h p { h p with right := some q }) q
        { (Heap.update h p { h p with right := some q }) q with
            parent := some p }) x).parent =
        if x = q then some p else (h x).parent := by
    intro x
    by_cases hxq : x = q
    · rw [if_pos hxq, hxq, Heap.update_same]
    · rw [if_neg hxq, Heap.update_other _ _ _ _ hxq]
      by_cases hxp : x = p
      · rw [hxp, Heap.update_same]
      · rw [Heap.update_other _ _ _ _ hxp]
  have Hright : ∀ x,
      ((Heap.update (Heap.update h p { h p with right := some q }) q
        { (Heap.update h p { h p with right := some q }) q with
            parent := some p }) x).right =
        if x = p then some q else (h x).right := by
    intro x
    by_cases hxq : x = q
    · rw [hxq, Heap.update_same]
      show ((Heap.update h p { h p with right := some q }) q).right = _
      by_cases hqp : q = p
      · rw [if_pos hqp, hqp, Heap.update_same]
      · rw [if_neg hqp, Heap.update_other _ _ _ _ hqp]
    · rw [Heap.update_other _ _ _ _ hxq]
      by_cases hxp : x = p
      · rw [if_pos hxp, hxp, Heap.update_same]
      · rw [if_neg hxp, Heap.update_other _ _ _ _ hxp]
  have Hleft : ∀ x,
      ((Heap.update (Heap.update h p { h p with right := some q }) q
        { (Heap.update h p { h p with right := some q }) q with
            parent := some p }) x).left = (h x).left := by
    intro x
    by_cases hxq : x = q
    · rw [hxq, Heap.update_same]
      show ((Heap.update h p { h p with right := some q }) q).left = _
      by_cases hqp : q = p
      · rw [hqp, Heap.update_same]
      · rw [Heap.update_other _ _ _ _ hqp]
    · rw [Heap.update_other _ _ _ _ hxq]
      by_cases hxp : x = p
      · rw [hxp, Heap.update_same]
      · rw [Heap.update_other _ _ _ _ hxp]
  intro a b hab
  rw [Hpar a] at hab
  by_cases haq : a = q
  · rw [if_pos haq] at hab
    have hbp : b = p := (Option.some.inj hab).symm
    right
    rw [Hright b, hbp, if_pos rfl, haq]
  · rw [if_neg haq] at hab
    have hw := hi a b hab
    rcases hw with hw | hw
    · left
      rw [Hleft b]
      exact hw
    · by_cases hbp : b = p
      · rw [hbp, hrn] at hw
        exact Option.noConfusion hw
      · right
        rw [Hright b, if_neg hbp]
        exact hw

theorem parentInv_append (h : Heap) (pN pQ : Option Nat) (m : Nat)
    (hi : ParentInv h) : ParentInv (Tree_NodeAppend h pN pQ m).2 := by
  cases pN with
  | none => cases pQ <;> exact hi
  | some p =>
    cases pQ with
    | none => exact hi
    | some q =>
      simp only [Tree_NodeAppend]
      split_ifs with hm1 hm2 hln hm3 hrn
      · exact hi
      · exact parentInv_attach_left h p q hln hi
      · exact hi
      · exact parentInv_attach_right h p q hrn hi
      · exact hi
      · exact hi

theorem parentInv_delete (h : Heap) (p : Nat) (hi : ParentInv h) :
    ParentInv (Tree_NodeDelete h p).2 := by
  by_cases hfail : (h p).left ≠ none ∨ (h p).right ≠ none
  · rw [(c3_nodeDelete_spec h p).1 hfail]
    exact hi
  · push_neg at hfail
    obtain ⟨hl, hr⟩ := hfail
    obtain ⟨-, hd2, hd3⟩ := (c3_nodeDelete_spec h p).2 hl hr
    intro a b hab
    by_cases hap : a = p
    · rw [hap, hd2] at hab
      exact absurd hab (by simp [emptyNode])
    · rw [hd3 a hap] at hab
      have hab' : (h a).parent = some b := by
        by_cases hc : (h p).parent = some a
        · rw [if_pos hc] at hab; exact hab
        · rw [if_neg hc] at hab; exact hab
      have hw := hi a b hab'
      by_cases hbp : b = p
      · rw [hbp, hl, hr] at hw
        rcases hw with hw | hw <;> exact Option.noConfusion hw
      · rw [hd3 b hbp]
        by_cases hc : (h p).parent = some b
        · rw [if_pos hc]
          rcases hw with hw | hw
          · left
            show (if (h b).left = some p then none else (h b).left) = some a
            rw [hw, if_neg (fun e => hap (Option.some.inj e))]
          · right
            show (if (h b).right = some p then none else (h b).right) = some a
            rw [hw, if_neg (fun e => hap (Option.some.inj e))]
        · rw [if_neg hc]
          exact hw

/-- `h'` is obtained from `h` by only clearing child slots: every slot is
either unchanged or absent. -/
def ClearsOnly (h h' : Heap) : Prop :=
  ∀ x, ((h' x).left = (h x).left ∨ (h' x).left = none) ∧
       ((h' x).right = (h x).right ∨ (h' x).right = none)

theorem clearsOnly_refl (h : Heap) : ClearsOnly h h :=
  fun _ => ⟨Or.inl rfl, Or.inl rfl⟩

theorem clearsOnly_trans {h1 h2 h3 : Heap} (a : ClearsOnly h1 h2)
    (b : ClearsOnly h2 h3) : ClearsOnly h1 h3 := by
  intro x
  obtain ⟨al, ar⟩ := a x
  obtain ⟨bl, br⟩ := b x
  constructor
  · rcases bl with e | e
    · rw [e]; exact al
    · exact Or.inr e
  · rcases br with e | e
    · rw [e]; exact ar
    · exact Or.inr e

theorem delete_clearsOnly (h : Heap) (p : Nat) :
    ClearsOnly h (Tree_NodeDelete h p).2 := by
  by_cases hfail : (h p).left ≠ none ∨ (h p).right ≠ none
  · rw [(c3_nodeDelete_spec h p).1 hfail]
    exact clearsOnly_refl h
  · push_neg at hfail
    obtain ⟨hl, hr⟩ := hfail
    obtain ⟨-, hd2, hd3⟩ := (c3_nodeDelete_spec h p).2 hl hr
    intro x
    by_cases hxp : x = p
    · rw [hxp, hd2]
      exact ⟨Or.inr rfl, Or.inr rfl⟩
    · rw [hd3 x hxp]
      by_cases hc : (h p).parent = some x
      · rw [if_pos hc]
        constructor
        · show (if (h x).left = some p then none else (h x).left) =
              (h x).left ∨
            (if (h x).left = some p then none else (h x).left) = none
          by_cases h1 : (h x).left = some p
          · exact Or.inr (if_pos h1)
          · exact Or.inl (if_neg h1)
        · show (if (h x).right = some p then none else (h x).right) =
              (h x).right ∨
            (if (h x).right = some p then none else (h x).right) = none
          by_cases h1 : (h x).right = some p
          · exact Or.inr (if_pos h1)
          · exact Or.inl (if_neg h1)
      · rw [if_neg hc]
        exact ⟨Or.inl rfl, Or.inl rfl⟩

theorem clearsOnly_update_left (h : Heap) (p : Nat) :
    ClearsOnly h (Heap.update h p { h p with left := none }) := by
  intro x
  by_cases hxp : x = p
  · rw [hxp, Heap.update_same]
    exact ⟨Or.inr rfl, Or.inl rfl⟩
  · rw [Heap.update_other _ _ _ _ hxp]
    exact ⟨Or.inl rfl, Or.inl rfl⟩

theorem clearsOnly_update_right (h : Heap) (p : Nat) :
    ClearsOnly h (Heap.update h p { h p with right := none }) := by
  intro x
  by_cases hxp : x = p
  · rw [hxp, Heap.update_same]
    exact ⟨Or.inl rfl, Or.inr rfl⟩
  · rw [Heap.update_other _ _ _ _ hxp]
    exact ⟨Or.inl rfl, Or.inl rfl⟩

theorem subTreeDeleteF_clearsOnly :
    ∀ (fuel : Nat) (h : Heap) (r : Option Nat) (c : TreeErrorCode)
      (h' : Heap),
      subTreeDeleteF fuel h r = some (c, h') → ClearsOnly h h' := by
  intro fuel
  induction fuel with
  | zero =>
    intro h r c h' he
    cases r with
    | none =>
      rw [subTreeDeleteF_none] at he
      obtain ⟨-, rfl⟩ : ERR_FAILURE = c ∧ h = h' := by simpa using he
      exact clearsOnly_refl h
    | some p => exact absurd he (by simp [subTreeDeleteF])
  | succ f ih =>
    intro h r c h' he
    cases r with
    | none =>
      rw [subTreeDeleteF_none] at he
      obtain ⟨-, rfl⟩ : ERR_FAILURE = c ∧ h = h' := by simpa using he
      exact clearsOnly_refl h
    | some p =>
      simp only [subTreeDeleteF] at he
      split at he
      · exact absurd he (by simp)
      · rename_i c1 h1 e1
        split at he
        · exact absurd he (by simp)
        · rename_i c2 h2 e2
          rw [Option.some_inj] at he
          injection he with hec heh
          subst hec
          subst heh
          have s2 : ClearsOnly h1 (if ((h p).left).isSome then
              Heap.update h1 p { h1 p with left := none } else h1) := by
            split
            · exact clearsOnly_update_left h1 p
            · exact clearsOnly_refl h1
          have s4 : ClearsOnly h2
              (if (((if ((h p).left).isSome then
                  Heap.update h1 p { h1 p with left := none }
                else h1) p).right).isSome then
                Heap.update h2 p { h2 p with right := none }
              else h2) := by
            by_cases hc : (((if ((h p).left).isSome then
                Heap.update h1 p { h1 p with left := none }
              else h1) p).right).isSome = true
            · rw [if_pos hc]
              exact clearsOnly_update_right h2 p
            · rw [if_neg hc]
              exact clearsOnly_refl h2
          exact clearsOnly_trans (ih _ _ _ _ e1)
            (clearsOnly_trans s2
              (clearsOnly_trans (ih _ _ _ _ e2)
                (clearsOnly_trans s4 (delete_clearsOnly _ p))))

theorem subTreeDeleteF_root (fuel : Nat) (h : Heap) (p : Nat)
    (c : TreeErrorCode) (h' : Heap)
    (he : subTreeDeleteF fuel h (some p) = some (c, h')) :
    c = ERR_SUCCESS ∧ h' p = emptyNode := by
  cases fuel with
  | zero => exact absurd he (by simp [subTreeDeleteF])
  | succ f =>
    simp only [subTreeDeleteF] at he
    split at he
    · exact absurd he (by simp)
    · rename_i c1 h1 e1
      split at he
      · exact absurd he (by simp)
      · rename_i c2 h2 e2
        rw [Option.some_inj] at he
        injection he with hec heh
        subst hec
        subst heh
        refine ⟨rfl, ?_⟩
        have hg1left : ((if ((h p).left).isSome then
            Heap.update h1 p { h1 p with left := none } else h1) p).left =
              none := by
          by_cases hc1 : ((h p).left).isSome = true
          · rw [if_pos hc1, Heap.update_same]
          · rw [if_neg hc1]
            have hln : (h p).left = none := by
              cases hl0 : (h p).left
              · rfl
              · rw [hl0] at hc1
                exact absurd rfl hc1
            rcases (subTreeDeleteF_clearsOnly f h _ _ _ e1 p).1 with e | e
            · rw [e, hln]
            · exact e
        have hg2left : ((if (((if ((h p).left).isSome then
              Heap.update h1 p { h1 p with left := none }
            else h1) p).right).isSome then
              Heap.update h2 p { h2 p with right := none }
            else h2) p).left = none := by
          have hmid : (h2 p).left = none := by
            rcases (subTreeDeleteF_clearsOnly f _ _ _ _ e2 p).1 with e | e
            · rw [e, hg1left]
            · exact e
          by_cases hc2 : (((if ((h p).left).isSome then
              Heap.update h1 p { h1 p with left := none }
            else h1) p).right).isSome = true
          · rw [if_pos hc2, Heap.update_same]
            exact hmid
          · rw [if_neg hc2]
            exact hmid
        have hg2right : ((if (((if ((h p).left).isSome then
              Heap.update h1 p { h1 p with left := none }
            else h1) p).right).isSome then
              Heap.update h2 p { h2 p with right := none }
            else h2) p).right = none := by
          by_cases hc2 : (((if ((h p).left).isSome then
              Heap.update h1 p { h1 p with left := none }
            else h1) p).right).isSome = true
          · rw [if_pos hc2, Heap.update_same]
          · rw [if_neg hc2]
            have hmidr : ((if ((h p).left).isSome then
                Heap.update h1 p { h1 p with left := none }
              else h1) p).right = none := by
              cases hr0 : ((if ((h p).left).isSome then
                  Heap.update h1 p { h1 p with left := none }
                else h1) p).right
              · rfl
              · rw [hr0] at hc2
                exact absurd rfl hc2
            rcases (subTreeDeleteF_clearsOnly f _ _ _ _ e2 p).2 with e | e
            · rw [e]
              exact hmidr
            · exact e
        exact ((c3_nodeDelete_spec _ p).2 hg2left hg2right).2.1

theorem parentInv_clear_left (h : Heap) (p : Nat)
    (hcond : ∀ y, (h p).left = some y → (h y).parent = none)
    (hi : ParentInv h) :
    ParentInv (Heap.update h p { h p with left := none }) := by
  intro a b hab
  have hab' : (h a).parent = some b := by
    by_cases hap : a = p
    · rw [hap, Heap.update_same] at hab
      rw [hap]
      exact hab
    · rw [Heap.update_other _ _ _ _ hap] at hab
      exact hab
  have hw := hi a b hab'
  by_cases hbp : b = p
  · rcases hw with hw | hw
    · have hnone := hcond a (hbp ▸ hw)
      rw [hbp] at hab'
      rw [hnone] at hab'
      exact absurd hab' (fun e => Option.noConfusion e)
    · right
      rw [hbp, Heap.update_same]
      exact hbp ▸ hw
  · rw [Heap.update_other _ _ _ _ hbp]
    exact hw

theorem parentInv_clear_right (h : Heap) (p : Nat)
    (hcond : ∀ y, (h p).right = some y → (h y).parent = none)
    (hi : ParentInv h) :
    ParentInv (Heap.update h p { h p with right := none }) := by
  intro a b hab
  have hab' : (h a).parent = some b := by
    by_cases hap : a = p
    · rw [hap, Heap.update_same] at hab
      rw [hap]
      exact hab
    · rw [Heap.update_other _ _ _ _ hap] at hab
      exact hab
  have hw := hi a b hab'
  by_cases hbp : b = p
  · rcases hw with hw | hw
    · left
      rw [hbp, Heap.update_same]
      exact hbp ▸ hw
    · have hnone := hcond a (hbp ▸ hw)
      rw [hbp] at hab'
      rw [hnone] at hab'
      exact absurd hab' (fun e => Option.noConfusion e)
  · rw [Heap.update_other _ _ _ _ hbp]
    exact hw

theorem parentInv_subTreeDeleteF :
    ∀ (fuel : Nat) (h : Heap) (r : Option Nat) (c : TreeErrorCode)
      (h' : Heap),
      subTreeDeleteF fuel h r = some (c, h') → ParentInv h →
      ParentInv h' := by
  intro fuel
  induction fuel with
  | zero =>
    intro h r c h' he hi
    cases r with
    | none =>
      rw [subTreeDeleteF_none] at he
      obtain ⟨-, rfl⟩ : ERR_FAILURE = c ∧ h = h' := by simpa using he
      exact hi
    | some p => exact absurd he (by simp [subTreeDeleteF])
  | succ f ih =>
    intro h r c h' he hi
    cases r with
    | none =>
      rw [subTreeDeleteF_none] at he
      obtain ⟨-, rfl⟩ : ERR_FAILURE = c ∧ h = h' := by simpa using he
      exact hi
    | some p =>
      simp only [subTreeDeleteF] at he
      split at he
      · exact absurd he (by simp)
      · rename_i c1 h1 e1
        split at he
        · exact absurd he (by simp)
        · rename_i c2 h2 e2
          rw [Option.some_inj] at he
          injection he with hec heh
          subst hec
          subst heh
          have hi1 : ParentInv h1 := ih _ _ _ _ e1 hi
          have hig1 : ParentInv (if ((h p).left).isSome then
              Heap.update h1 p { h1 p with left := none } else h1) := by
            by_cases hc1 : ((h p).left).isSome = true
            · rw [if_pos hc1]
              refine parentInv_clear_left h1 p ?_ hi1
              intro y hy
              have hclr := (subTreeDeleteF_clearsOnly f h _ _ _ e1 p).1
              have hhy : (h p).left = some y := by
                rcases hclr with e | e
                · rw [← e]
                  exact hy
                · rw [e] at hy
                  exact absurd hy (fun ee => Option.noConfusion ee)
              rw [hhy] at e1
              have hroot := (subTreeDeleteF_root f h y _ _ e1).2
              rw [hroot]
              rfl
            · rw [if_neg hc1]
              exact hi1
          have hi2 : ParentInv h2 := ih _ _ _ _ e2 hig1
          have hig2 : ParentInv (if (((if ((h p).left).isSome then
              Heap.update h1 p { h1 p with left := none }
            else h1) p).right).isSome then
              Heap.update h2 p { h2 p with right := none }
            else h2) := by
            by_cases hc2 : (((if ((h p).left).isSome then
                Heap.update h1 p { h1 p with left := none }
              else h1) p).right).isSome = true
            · rw [if_pos hc2]
              refine parentInv_clear_right h2 p ?_ hi2
              intro y hy
              have hclr := (subTreeDeleteF_clearsOnly f _ _ _ _ e2 p).2
              have hhy : ((if ((h p).left).isSome then
                  Heap.update h1 p { h1 p with left := none }
                else h1) p).right = some y := by
                rcases hclr with e | e
                · rw [← e]
                  exact hy
                · rw [e] at hy
                  exact absurd hy (fun ee => Option.noConfusion ee)
              rw [hhy] at e2
              have hroot := (subTreeDeleteF_root f _ y _ _ e2).2
              rw [hroot]
              rfl
            · rw [if_neg hc2]
              exact hi2
          exact parentInv_delete _ p hig2

theorem parentInv_step (h h1 : Heap) (op : TreeOp)
    (hnd : noDoubleAttach h op) (hil : initOnLeaf h op)
    (he : op.exec h = some h1) (hi : ParentInv h) : ParentInv h1 := by
  cases op with
  | init p =>
    rw [show TreeOp.exec (.init p) h = some (Tree_NodeInit h p) from rfl,
      Option.some_inj] at he
    rw [← he]
    exact parentInv_init h p hil.1 hil.2 hi
  | append a b m =>
    rw [show TreeOp.exec (.append a b m) h =
        some (Tree_NodeAppend h a b m).2 from rfl,
      Option.some_inj] at he
    rw [← he]
    exact parentInv_append h a b m hi
  | delete p =>
    rw [show TreeOp.exec (.delete p) h =
        some (Tree_NodeDelete h p).2 from rfl,
      Option.some_inj] at he
    rw [← he]
    exact parentInv_delete h p hi
  | subDel fuel r =>
    simp only [TreeOp.exec] at he
    split at he
    · exact absurd he (by simp)
    · rename_i c hd e
      rw [Option.some_inj] at he
      rw [← he]
      exact parentInv_subTreeDeleteF fuel h r c hd e hi

/-- The invariant is preserved along every legal run. -/
theorem parentInv_run (h h' : Heap) (ops : List TreeOp)
    (hrun : LegalRun h ops h') : ParentInv h → ParentInv h' := by
  induction hrun with
  | nil => exact fun hi => hi
  | cons h0 h1 h2 op ops hnd hil he hrun ih =>
    exact fun hi => ih (parentInv_step h0 h1 op hnd hil he hi)

/-- Counterexample for C10.  The operation list quantified by the claim
includes `init`, and the claim's only caller restriction is on appending
already-attached nodes.  The sequence
`init 0; init 1; append(0, 1, LEFT); init 0` obeys that restriction, yet
its final state has node `1` with `parent = some 0` while node `0` holds
no child slot pointing back at `1` — the back-reference invariant fails. -/
theorem c10_invariant_counterexample :
    ∃ hf, LegalRunOrig emptyHeap
        [TreeOp.init 0, TreeOp.init 1,
          TreeOp.append (some 0) (some 1) INSERT_POS_LEFT,
          TreeOp.init 0] hf ∧
      ¬ ParentInv hf := by
  have h2all : ∀ x,
      Tree_NodeInit (Tree_NodeInit emptyHeap 0) 1 x = emptyNode := by
    intro x
    unfold Tree_NodeInit Heap.update emptyHeap
    split_ifs <;> rfl
  refine ⟨Tree_NodeInit
      (Tree_NodeAppend (Tree_NodeInit (Tree_NodeInit emptyHeap 0) 1)
        (some 0) (some 1) INSERT_POS_LEFT).2 0, ?_, ?_⟩
  · refine LegalRunOrig.cons _ _ _ _ _ trivial rfl ?_
    refine LegalRunOrig.cons _ _ _ _ _ trivial rfl ?_
    refine LegalRunOrig.cons _ _ _ _ _ ?_ rfl ?_
    · rintro ⟨x, hx | hx⟩ <;> rw [h2all x] at hx <;>
        exact Option.noConfusion hx
    · exact LegalRunOrig.cons _ _ _ _ _ trivial rfl (LegalRunOrig.nil _)
  · intro hinv
    have hfact := hinv 1 0 (by decide)
    rcases hfact with hc | hc <;> revert hc <;> decide

/-- C10 (amended): starting from initialized nodes and applying any
sequence of the public operations in which the caller never attaches an
already-attached node and, additionally, never re-initializes a node that
still holds a child, every reachable state satisfies the back-reference
invariant: whenever a node's parent is present, that parent's left or
right slot points back at the node. -/
theorem c10_invariant_amended (ops : List TreeOp) (h h' : Heap)
    (hstart : ∀ x, h x = emptyNode) (hrun : LegalRun h ops h') :
    ParentInv h' := by
  refine parentInv_run h h' ops hrun ?_
  intro a b hab
  rw [hstart a] at hab
  exact absurd hab (fun e => Option.noConfusion e)

/-- Witness for C10 (amended): the two-step run `init 0; append(0,1,LEFT)`
from the all-empty heap reaches a state satisfying the invariant. -/
theorem c10_invariant_amended_witness :
    ParentInv (Tree_NodeAppend (Tree_NodeInit emptyHeap 0) (some 0) (some 1)
      INSERT_POS_LEFT).2 := by
  refine c10_invariant_amended
    [TreeOp.init 0, TreeOp.append (some 0) (some 1) INSERT_POS_LEFT]
    emptyHeap _ (fun _ => rfl) ?_
  refine LegalRun.cons _ _ _ _ _ trivial ?_ rfl ?_
  · exact ⟨rfl, rfl⟩
  · refine LegalRun.cons _ _ _ _ _ ?_ trivial rfl (LegalRun.nil _)
    rintro ⟨x, hx | hx⟩ <;>
      · revert hx
        unfold Tree_NodeInit Heap.update emptyHeap
        split_ifs <;> decide
